import Mathlib

/-!
Shallow embedding of the Surface translation unit (src/transfinite/surface.cc)
of the transfinite surface library.

Modelling conventions:
- C++ `double` values are modelled as rationals (ℚ); every arithmetic step of
  the source is mirrored exactly, so all proved identities hold for the ideal
  real-number semantics of the code.
- 3D points and vectors (`Point3D` / `Vector3D`) are triples of rationals with
  componentwise addition, subtraction and scalar operations.
- the source only ever compares Euclidean norms, never uses their values, and
  comparison of nonnegative reals agrees with comparison of their squares, so
  each `norm()` comparison is embedded as a comparison of squared norms.
- the boundary tolerance `epsilon` is declared in a header that is not part of
  the excerpt; it is kept as an explicit parameter `eps`, assumed positive.
- `std::pow(x, -2)` is modelled as `(x ^ 2)⁻¹`; every theorem only evaluates it
  at arguments bounded away from zero, where the two semantics agree.
- Curve, Ribbon, Domain and Parameterization are external collaborators; they
  are modelled as records of evaluation maps.  The `domain_` and `param_`
  updates touch none of the state the Surface code reads, so they are omitted.
-/

namespace Transfinite

/-- A 3D point or vector: a triple of rationals. -/
abbrev Vec3 := ℚ × ℚ × ℚ

def zeroV : Vec3 := (0, 0, 0)

/-- Componentwise multiplication of a vector by a scalar (C++ `v * c`). -/
def mulS (v : Vec3) (c : ℚ) : Vec3 := (v.1 * c, v.2.1 * c, v.2.2 * c)

/-- Componentwise division of a vector by a scalar (C++ `v / c`). -/
def divS (v : Vec3) (c : ℚ) : Vec3 := (v.1 / c, v.2.1 / c, v.2.2 / c)

/-- Squared Euclidean norm; used to embed the `norm()` comparisons. -/
def norm2 (v : Vec3) : ℚ := v.1 ^ 2 + v.2.1 ^ 2 + v.2.2 ^ 2

/-- Modelled from the spec: the cyclic successor helper declared in the header
surface.hh, `next(i) = (i+1) % n` (spec section 3). -/
def nextIdx (n i : ℕ) : ℕ := (i + 1) % n

/-- Modelled from the spec: the cyclic predecessor helper declared in the
header surface.hh, `prev(i) = (i+n-1) % n` (spec section 3). -/
def prevIdx (n i : ℕ) : ℕ := (i + n - 1) % n

/-- Cyclic successor on `Fin n`. -/
def nextF {n : ℕ} (i : Fin n) : Fin n := ⟨nextIdx n i, Nat.mod_lt _ i.pos⟩

/-- Cyclic predecessor on `Fin n`. -/
def prevF {n : ℕ} (i : Fin n) : Fin n := ⟨prevIdx n i, Nat.mod_lt _ i.pos⟩

/-- A boundary curve, modelled by its point map and first-derivative map over
the normalized parameter interval [0,1].  `normalize()` reparametrizes a
BSCurve to [0,1] and is the identity in this model (curves are stored directly
as maps on [0,1]); `reverse()` followed by the renormalization the source
always performs afterwards flips the parameter. -/
structure Curve3 where
  ev : ℚ → Vec3
  dv : ℚ → Vec3

/-- Effect of `reverse()` (+ renormalization) on the modelled curve maps:
the point map flips, the first derivative flips and changes sign. -/
def reverseCurve (c : Curve3) : Curve3 :=
  { ev := fun t => c.ev (1 - t), dv := fun t => -(c.dv (1 - t)) }

/-- Effect of `normalize()` on the modelled curve maps: the identity, since
curves are stored as maps on the normalized interval. -/
def normalizeCurve (c : Curve3) : Curve3 := c

/-- A ribbon: its boundary curve plus its surface-strip evaluator
`eval(Point2D(s,d))`, an external collaborator kept abstract.  Adjacency is
index-based in this model (`next`/`prev` below), so the `setNeighbors`
pointer wiring has no modelled state. -/
structure Ribbon where
  curve : Curve3
  eval : ℚ × ℚ → Vec3

structure CornerData where
  point : Vec3
  tangent1 : Vec3
  tangent2 : Vec3
  twist1 : Vec3
  twist2 : Vec3

def defaultCurve : Curve3 := { ev := fun _ => zeroV, dv := fun _ => zeroV }

def defaultRibbon : Ribbon := { curve := defaultCurve, eval := fun _ => zeroV }

def defaultCD : CornerData := ⟨zeroV, zeroV, zeroV, zeroV, zeroV⟩

/-- The Surface state: side count `n_`, the ribbon sequence, the corner-data
sequence, and the gamma flag. -/
structure Surface where
  n : ℕ
  ribbons : List Ribbon
  corner_data : List CornerData
  use_gamma : Bool

/-- Body of Surface::gamma on an explicit flag value. -/
def gammaFn (useGamma : Bool) (d : ℚ) : ℚ :=
  if useGamma then d / (2 * d + 1) else d

/-- Surface::gamma. -/
def Surface.gamma (S : Surface) (d : ℚ) : ℚ := gammaFn S.use_gamma d

/-- Surface::rationalTwist (a static member, so no Surface state). -/
def rationalTwist (eps u v : ℚ) (f g : Vec3) : Vec3 :=
  if |u + v| < eps then zeroV
  else divS (mulS f u + mulS g v) (u + v)

/-- std::pow(x, -2), total over ℚ. -/
def powm2 (x : ℚ) : ℚ := (x ^ 2)⁻¹

/-- The boundary-counting loop shared by the two blend functions: the number
of sides whose distance coordinate is below eps. -/
def closeCount (eps : ℚ) (n : ℕ) (sds : Fin n → ℚ × ℚ) : ℕ :=
  (Finset.univ.filter fun i : Fin n => (sds i).2 < eps).card

/-- Surface::blendCorner, over one (s,d) pair per side (the claims fix the
input length to `n_`, so `sds` is indexed by `Fin S.n`). -/
def Surface.blendCorner (eps : ℚ) (S : Surface) (sds : Fin S.n → ℚ × ℚ) :
    Fin S.n → ℚ :=
  let close_to_boundary := closeCount eps S.n sds
  if 0 < close_to_boundary then
    fun i =>
      let ip := nextF i
      if 1 < close_to_boundary then
        if (sds i).2 < eps ∧ (sds ip).2 < eps then 1 else 0
      else if (sds i).2 < eps then
        let tmp := powm2 (sds ip).2
        tmp / (tmp + powm2 (sds (prevF i)).2)
      else if (sds ip).2 < eps then
        let tmp := powm2 (sds i).2
        tmp / (tmp + powm2 (sds (nextF ip)).2)
      else 0
  else
    let blf := fun i : Fin S.n => powm2 ((sds i).2 * (sds (nextF i)).2)
    let denominator := ∑ j, blf j
    fun i => blf i / denominator

/-- Surface::blendSideSingular. -/
def Surface.blendSideSingular (eps : ℚ) (S : Surface) (sds : Fin S.n → ℚ × ℚ) :
    Fin S.n → ℚ :=
  let close_to_boundary := closeCount eps S.n sds
  if 0 < close_to_boundary then
    let blend_val := 1 / (close_to_boundary : ℚ)
    fun i => if (sds i).2 < eps then blend_val else 0
  else
    let blf := fun i : Fin S.n => powm2 (sds i).2
    let denominator := ∑ j, blf j
    fun i => blf i / denominator

/-- Surface::blendHermite. -/
def blendHermite (x : ℚ) : ℚ :=
  let x2 := x * x
  2 * x * x2 - 3 * x2 + 1

/-- Surface::cornerCorrection. -/
def Surface.cornerCorrection (eps : ℚ) (S : Surface) (i : ℕ) (si si1 : ℚ) :
    Vec3 :=
  let si2 := min (max si 0) 1
  let si3 := min (max si1 0) 1
  let cd := S.corner_data.getD i defaultCD
  cd.point + mulS cd.tangent1 (S.gamma si2)
    + mulS cd.tangent2 (S.gamma si3)
    + mulS (mulS (rationalTwist eps si2 si3 cd.twist1 cd.twist2) (S.gamma si2))
        (S.gamma si3)

/-- Surface::sideInterpolant. -/
def Surface.sideInterpolant (S : Surface) (i : ℕ) (si di : ℚ) : Vec3 :=
  let si2 := min (max si 0) 1
  let di2 := max (S.gamma di) 0
  (S.ribbons.getD i defaultRibbon).eval (si2, di2)

/-- The fixed finite-difference step of Surface::updateCorner (1.0e-4). -/
def fdStep : ℚ := 1 / 10000

/-- The field-by-field recomputation Surface::updateCorner performs on
corner_data_[i]: `old` is the previous record.  Note that both
finite-difference results are assigned to twist1 (the second overwrites the
first) and twist2 is never written, exactly as in the source. -/
def updateCornerData (n : ℕ) (ribbons : List Ribbon) (i : ℕ)
    (old : CornerData) : CornerData :=
  let ip := nextIdx n i
  let ri := ribbons.getD i defaultRibbon
  let rip := ribbons.getD ip defaultRibbon
  let cd1 := { old with point := ri.curve.ev 1, tangent1 := -(ri.curve.dv 1) }
  let cd2 := { cd1 with tangent2 := rip.curve.dv 0 }
  let d1 := ri.eval (1, 1)
  let d2 := ri.eval (1 - fdStep, 1)
  let cd3 := { cd2 with twist1 := divS (d2 - d1) fdStep }
  let d1b := rip.eval (0, 1)
  let d2b := rip.eval (fdStep, 1)
  { cd3 with twist1 := divS (d2b - d1b) fdStep }

/-- Surface::updateCorner(i): mutate corner_data_[i]. -/
def Surface.updateCorner (S : Surface) (i : ℕ) : Surface :=
  let cd := updateCornerData S.n S.ribbons i (S.corner_data.getD i defaultCD)
  { S with corner_data := S.corner_data.set i cd }

/-- std::vector::resize(m): truncate or pad with default-constructed data. -/
def resizeL {α : Type} (l : List α) (m : ℕ) (d : α) : List α :=
  l.take m ++ List.replicate (m - l.length) d

/-- Surface::updateCorners: resize corner_data_ to n_, recompute each corner. -/
def Surface.updateCorners (S : Surface) : Surface :=
  (List.range S.n).foldl (fun T i => T.updateCorner i)
    { S with corner_data := resizeL S.corner_data S.n defaultCD }

/-- Surface::update(i) (single-index overload); `ext` models the external
Ribbon::update recomputation.  The domain and parameterization updates touch
no modelled state. -/
def Surface.updateOne (ext : Ribbon → Ribbon) (S : Surface) (i : ℕ) : Surface :=
  let rb := S.ribbons.set i (ext (S.ribbons.getD i defaultRibbon))
  let S1 := { S with ribbons := rb }
  (S1.updateCorner (prevIdx S1.n i)).updateCorner i

/-- Surface::update() (no-argument overload). -/
def Surface.updateAll (ext : Ribbon → Ribbon) (S : Surface) : Surface :=
  Surface.updateCorners { S with ribbons := S.ribbons.map ext }

/-- Surface::setCurve(i, curve); `mk` models newRibbon() + Ribbon::setCurve.
The domain_->setSide call touches no modelled state. -/
def Surface.setCurve (mk : Curve3 → Ribbon) (S : Surface) (i : ℕ)
    (c : Curve3) : Surface :=
  let S1 :=
    if S.n ≤ i then
      { S with ribbons := resizeL S.ribbons (i + 1) defaultRibbon, n := i + 1 }
    else S
  { S1 with ribbons := S1.ribbons.set i (mk c) }

/-- Surface::setCurves(curves). -/
def Surface.setCurves (mk : Curve3 → Ribbon) (S : Surface)
    (curves : List Curve3) : Surface :=
  { S with ribbons := curves.map mk, n := curves.length }

/-- Effect of `ribbons_[i]->curve()->reverse(); ...->normalize()` on the
state: replace the curve of ribbon i by its reversed (renormalized) curve. -/
def reverseRibbonAt (T : Surface) (i : ℕ) : Surface :=
  let ri := T.ribbons.getD i defaultRibbon
  let rev := T.ribbons.set i
    { ri with curve := normalizeCurve (reverseCurve ri.curve) }
  { T with ribbons := rev }

/-- One iteration of the orientation loop of Surface::setupLoop (the
setNeighbors pointer wiring has no modelled state; adjacency is by index). -/
def loopStep (T : Surface) (i : ℕ) : Surface :=
  let ri := T.ribbons.getD i defaultRibbon
  let rp := T.ribbons.getD (prevIdx T.n i) defaultRibbon
  let rn := T.ribbons.getD (nextIdx T.n i) defaultRibbon
  if i = 0 then
    let r_start := ri.curve.ev 0
    let r_end := ri.curve.ev 1
    let rn_start := rn.curve.ev 0
    let rn_end := rn.curve.ev 1
    let end_to_start := norm2 (r_end - rn_start)
    let end_to_end := norm2 (r_end - rn_end)
    let start_to_start := norm2 (r_start - rn_start)
    let start_to_end := norm2 (r_start - rn_end)
    if min start_to_start start_to_end < min end_to_start end_to_end then
      reverseRibbonAt T i
    else T
  else
    let r_start := ri.curve.ev 0
    let r_end := ri.curve.ev 1
    let rp_end := rp.curve.ev 1
    if norm2 (r_end - rp_end) < norm2 (r_start - rp_end) then
      reverseRibbonAt T i
    else T

/-- Surface::setupLoop: normalize every curve, then run the orientation loop
over all indices in order. -/
def Surface.setupLoop (S : Surface) : Surface :=
  let normed := S.ribbons.map fun r => { r with curve := normalizeCurve r.curve }
  let S1 := { S with ribbons := normed }
  (List.range S.n).foldl loopStep S1

/-! Helper lemmas about the cyclic index maps. -/

theorem nextIdx_prevIdx (n i : ℕ) (h : i < n) : nextIdx n (prevIdx n i) = i := by
  unfold nextIdx prevIdx
  rcases Nat.eq_zero_or_pos i with h0 | h1
  · subst h0
    rw [Nat.zero_add, Nat.mod_eq_of_lt (by omega : n - 1 < n),
      (by omega : n - 1 + 1 = n), Nat.mod_self]
  · rw [(by omega : i + n - 1 = (i - 1) + n), Nat.add_mod_right,
      Nat.mod_eq_of_lt (by omega : i - 1 < n), (by omega : i - 1 + 1 = i),
      Nat.mod_eq_of_lt h]

theorem prevIdx_nextIdx (n i : ℕ) (h : i < n) : prevIdx n (nextIdx n i) = i := by
  unfold nextIdx prevIdx
  rcases Nat.lt_or_ge (i + 1) n with h1 | h1
  · rw [Nat.mod_eq_of_lt h1, (by omega : i + 1 + n - 1 = i + n),
      Nat.add_mod_right, Nat.mod_eq_of_lt h]
  · have he : i + 1 = n := by omega
    rw [he, Nat.mod_self, Nat.zero_add,
      Nat.mod_eq_of_lt (by omega : n - 1 < n)]
    omega

theorem nextF_prevF {n : ℕ} (i : Fin n) : nextF (prevF i) = i :=
  Fin.ext (nextIdx_prevIdx n i.val i.isLt)

theorem prevF_nextF {n : ℕ} (i : Fin n) : prevF (nextF i) = i :=
  Fin.ext (prevIdx_nextIdx n i.val i.isLt)

theorem nextF_ne {n : ℕ} (hn : 2 ≤ n) (i : Fin n) : nextF i ≠ i := by
  intro he
  have hv : (i.val + 1) % n = i.val := congrArg Fin.val he
  rcases Nat.lt_or_ge (i.val + 1) n with h1 | h1
  · rw [Nat.mod_eq_of_lt h1] at hv; omega
  · have he2 : i.val + 1 = n := by have := i.isLt; omega
    rw [he2, Nat.mod_self] at hv
    omega

theorem prevF_ne {n : ℕ} (hn : 2 ≤ n) (i : Fin n) : prevF i ≠ i := by
  intro he
  have h2 := nextF_prevF i
  rw [he] at h2
  exact nextF_ne hn i h2

theorem nextF_ne_prevF {n : ℕ} (hn : 3 ≤ n) (i : Fin n) : nextF i ≠ prevF i := by
  intro he
  have h2 : nextF (nextF i) = i := by rw [he, nextF_prevF]
  have hv : ((i.val + 1) % n + 1) % n = i.val := congrArg Fin.val h2
  rcases Nat.lt_or_ge (i.val + 1) n with h1 | h1
  · rw [Nat.mod_eq_of_lt h1] at hv
    rcases Nat.lt_or_ge (i.val + 1 + 1) n with h3 | h3
    · rw [Nat.mod_eq_of_lt h3] at hv; omega
    · have he2 : i.val + 1 + 1 = n := by omega
      rw [he2, Nat.mod_self] at hv
      omega
  · have he2 : i.val + 1 = n := by have := i.isLt; omega
    rw [he2, Nat.mod_self, Nat.zero_add,
      Nat.mod_eq_of_lt (by omega : 1 < n)] at hv
    omega

/-! Helper lemmas about lists. -/

theorem getD_set_ne {α : Type} (l : List α) (i j : ℕ) (a d : α) (h : i ≠ j) :
    (l.set i a).getD j d = l.getD j d := by
  induction l generalizing i j with
  | nil => rfl
  | cons x xs ih =>
    cases i with
    | zero =>
      cases j with
      | zero => exact absurd rfl h
      | succ j2 => rfl
    | succ i2 =>
      cases j with
      | zero => rfl
      | succ j2 =>
        show (xs.set i2 a).getD j2 d = xs.getD j2 d
        exact ih i2 j2 (by omega)

theorem getD_set_self {α : Type} (l : List α) (i : ℕ) (a d : α)
    (h : i < l.length) : (l.set i a).getD i d = a := by
  induction l generalizing i with
  | nil => simp at h
  | cons x xs ih =>
    cases i with
    | zero => rfl
    | succ i2 =>
      show (xs.set i2 a).getD i2 d = a
      exact ih i2 (by simpa using h)

theorem length_resizeL {α : Type} (l : List α) (m : ℕ) (d : α) :
    (resizeL l m d).length = m := by
  simp [resizeL]
  omega

theorem getD_resizeL_lt {α : Type} (l : List α) (m i : ℕ) (d : α)
    (hi : i < l.length) (him : i < m) :
    (resizeL l m d).getD i d = l.getD i d := by
  induction l generalizing m i with
  | nil => simp at hi
  | cons x xs ih =>
    cases m with
    | zero => omega
    | succ m2 =>
      have hr : resizeL (x :: xs) (m2 + 1) d = x :: resizeL xs m2 d := by
        unfold resizeL
        rw [List.take_succ_cons, List.length_cons, Nat.succ_sub_succ,
          List.cons_append]
      rw [hr]
      cases i with
      | zero => rfl
      | succ i2 =>
        show (resizeL xs m2 d).getD i2 d = xs.getD i2 d
        exact ih m2 i2 (by simpa using hi) (by omega)

theorem foldl_fixed {α β : Type} (f : β → α → β) (l : List α) (b : β)
    (h : ∀ a ∈ l, f b a = b) : l.foldl f b = b := by
  induction l with
  | nil => rfl
  | cons x xs ih =>
    rw [List.foldl_cons, h x (List.mem_cons_self x xs)]
    exact ih fun a ha => h a (List.mem_cons_of_mem x ha)

theorem foldl_invariant {α β : Type} (P : β → Prop) (f : β → α → β)
    (l : List α) (b : β) (hb : P b) (hf : ∀ b2 a, a ∈ l → P b2 → P (f b2 a)) :
    P (l.foldl f b) := by
  induction l generalizing b with
  | nil => exact hb
  | cons x xs ih =>
    rw [List.foldl_cons]
    exact ih (f b x) (hf b x (List.mem_cons_self x xs) hb)
      fun b2 a ha => hf b2 a (List.mem_cons_of_mem x ha)

/-! Basic facts about the vector operations. -/

theorem norm2_nonneg (v : Vec3) : 0 ≤ norm2 v := by
  unfold norm2
  positivity

theorem norm2_zero_eq : norm2 0 = 0 := by
  show (0:ℚ) ^ 2 + (0:ℚ) ^ 2 + (0:ℚ) ^ 2 = 0
  norm_num

/-- C6: gamma(0) = 0 in both modes; with use_gamma_ enabled, gamma(d) equals
d/(2d+1) and gamma is monotonic nondecreasing on [0, infinity); with
use_gamma_ disabled, gamma(d) = d for every d. -/
theorem gamma_zero_formula_monotone :
    (∀ b : Bool, gammaFn b 0 = 0)
    ∧ (∀ d : ℚ, gammaFn true d = d / (2 * d + 1))
    ∧ (∀ d1 d2 : ℚ, 0 ≤ d1 → d1 ≤ d2 → gammaFn true d1 ≤ gammaFn true d2)
    ∧ (∀ d : ℚ, gammaFn false d = d) := by
  refine ⟨?_, ?_, ?_, ?_⟩
  · intro b
    cases b <;> simp [gammaFn]
  · intro d
    rfl
  · intro d1 d2 h0 h12
    show d1 / (2 * d1 + 1) ≤ d2 / (2 * d2 + 1)
    have hp1 : (0:ℚ) < 2 * d1 + 1 := by linarith
    have hp2 : (0:ℚ) < 2 * d2 + 1 := by linarith
    rw [div_le_div_iff₀ hp1 hp2]
    nlinarith
  · intro d
    rfl

theorem gamma_zero_formula_monotone_witness :
    (0:ℚ) ≤ 1 ∧ (1:ℚ) ≤ 2 ∧ gammaFn true 1 ≤ gammaFn true 2 :=
  ⟨by norm_num, by norm_num,
    gamma_zero_formula_monotone.2.2.1 1 2 (by norm_num) (by norm_num)⟩

/-- C7: rationalTwist returns (f*u + g*v)/(u+v) when the absolute value of
u+v is at least epsilon, and the zero vector when it is below epsilon; in
particular rationalTwist(0,0,f,g) is the zero vector regardless of f, g. -/
theorem rationalTwist_spec (eps : ℚ) (heps : 0 < eps) :
    (∀ (u v : ℚ) (f g : Vec3), |u + v| < eps →
        rationalTwist eps u v f g = zeroV)
    ∧ (∀ (u v : ℚ) (f g : Vec3), eps ≤ |u + v| →
        rationalTwist eps u v f g = divS (mulS f u + mulS g v) (u + v))
    ∧ (∀ f g : Vec3, rationalTwist eps 0 0 f g = zeroV) := by
  refine ⟨?_, ?_, ?_⟩
  · intro u v f g h
    unfold rationalTwist
    rw [if_pos h]
  · intro u v f g h
    unfold rationalTwist
    rw [if_neg (not_lt.mpr h)]
  · intro f g
    have h : |(0:ℚ) + 0| < eps := by simpa using heps
    unfold rationalTwist
    rw [if_pos h]

theorem rationalTwist_spec_witness :
    rationalTwist 1 0 0 (1, 2, 3) (4, 5, 6) = zeroV :=
  (rationalTwist_spec 1 one_pos).2.2 (1, 2, 3) (4, 5, 6)

/-- C4: in the orientation pass of setupLoop, for every index i > 0 the step
reverses (and renormalizes) curve i exactly when the Euclidean distance from
the start of curve i to the end of the previous curve is strictly greater
than the distance from the end of curve i to the end of the previous curve
(embedded as the equivalent comparison of squared norms); on ties or when the
start is at least as close, the state is unchanged (no reversal). -/
theorem setupLoop_reversal_condition (T : Surface) (i : ℕ) (h0 : 0 < i) :
    (norm2 ((T.ribbons.getD i defaultRibbon).curve.ev 0
        - (T.ribbons.getD (prevIdx T.n i) defaultRibbon).curve.ev 1)
      > norm2 ((T.ribbons.getD i defaultRibbon).curve.ev 1
        - (T.ribbons.getD (prevIdx T.n i) defaultRibbon).curve.ev 1) →
      loopStep T i = reverseRibbonAt T i)
    ∧ (norm2 ((T.ribbons.getD i defaultRibbon).curve.ev 0
        - (T.ribbons.getD (prevIdx T.n i) defaultRibbon).curve.ev 1)
      ≤ norm2 ((T.ribbons.getD i defaultRibbon).curve.ev 1
        - (T.ribbons.getD (prevIdx T.n i) defaultRibbon).curve.ev 1) →
      loopStep T i = T) := by
  constructor
  · intro hgt
    simp only [loopStep]
    rw [if_neg (by omega : ¬ i = 0), if_pos hgt]
  · intro hle
    simp only [loopStep]
    rw [if_neg (by omega : ¬ i = 0), if_neg (not_lt.mpr hle)]

/-- Two straight segments whose second curve is stored reversed relative to
the end of the first; used to exercise the reversal branch. -/
def wSurf : Surface :=
  ⟨2,
   [⟨⟨fun t => (t, 0, 0), fun _ => (1, 0, 0)⟩, fun _ => zeroV⟩,
    ⟨⟨fun t => (2 - t, 0, 0), fun _ => (-1, 0, 0)⟩, fun _ => zeroV⟩],
   [], true⟩

theorem setupLoop_reversal_condition_witness :
    loopStep wSurf 1 = reverseRibbonAt wSurf 1 :=
  (setupLoop_reversal_condition wSurf 1 (by norm_num)).1 (by
    have h1 : wSurf.ribbons.getD 1 defaultRibbon
        = ⟨⟨fun t => (2 - t, 0, 0), fun _ => (-1, 0, 0)⟩, fun _ => zeroV⟩ := rfl
    have h0 : wSurf.ribbons.getD (prevIdx wSurf.n 1) defaultRibbon
        = ⟨⟨fun t => (t, 0, 0), fun _ => (1, 0, 0)⟩, fun _ => zeroV⟩ := rfl
    rw [h1, h0]
    show norm2 ((2 - (0:ℚ), (0:ℚ), (0:ℚ)) - (1, 0, 0))
        > norm2 ((2 - (1:ℚ), (0:ℚ), (0:ℚ)) - (1, 0, 0))
    norm_num [norm2, Prod.mk_sub_mk])

/-- C5: for N >= 3 curves already forming a closed, consistently oriented
loop (each curve end coincides with the next curve start), setupLoop reverses
no curve and leaves the state unchanged; hence a second run also causes no
further reversals (idempotence). -/
theorem setupLoop_closed_loop_identity (S : Surface)
    (hlen : S.ribbons.length = S.n) (hn : 3 ≤ S.n)
    (hclosed : ∀ i < S.n, (S.ribbons.getD i defaultRibbon).curve.ev 1
        = (S.ribbons.getD (nextIdx S.n i) defaultRibbon).curve.ev 0) :
    S.setupLoop = S ∧ S.setupLoop.setupLoop = S := by
  have hmap : (S.ribbons.map fun r : Ribbon =>
      { r with curve := normalizeCurve r.curve }) = S.ribbons := by
    have h1 : (fun r : Ribbon => { r with curve := normalizeCurve r.curve })
        = fun r => r := rfl
    rw [h1]
    exact List.map_id' S.ribbons
  have hid : S.setupLoop = S := by
    simp only [Surface.setupLoop, hmap]
    have hSS : ({ S with ribbons := S.ribbons } : Surface) = S := rfl
    rw [hSS]
    apply foldl_fixed
    intro i hi
    have hilt : i < S.n := List.mem_range.mp hi
    simp only [loopStep]
    split
    · -- index 0: the end of curve 0 coincides with the start of the next
      -- curve, so the end-based minimum is 0 and no reversal can win.
      split
      · rename_i hlt
        exfalso
        have hz : (S.ribbons.getD i defaultRibbon).curve.ev 1
            - (S.ribbons.getD (nextIdx S.n i) defaultRibbon).curve.ev 0 = 0 := by
          rw [hclosed i hilt, sub_self]
        rw [hz, norm2_zero_eq] at hlt
        have h2 : (0:ℚ) ≤ min
            (norm2 ((S.ribbons.getD i defaultRibbon).curve.ev 0
              - (S.ribbons.getD (nextIdx S.n i) defaultRibbon).curve.ev 0))
            (norm2 ((S.ribbons.getD i defaultRibbon).curve.ev 0
              - (S.ribbons.getD (nextIdx S.n i) defaultRibbon).curve.ev 1)) :=
          le_min (norm2_nonneg _) (norm2_nonneg _)
        have h3 := min_le_left (0:ℚ)
          (norm2 ((S.ribbons.getD i defaultRibbon).curve.ev 1
            - (S.ribbons.getD (nextIdx S.n i) defaultRibbon).curve.ev 1))
        linarith
      · rfl
    · -- index i > 0: the start of curve i coincides with the end of the
      -- previous curve, so the start distance is 0 and no reversal can win.
      split
      · rename_i hlt
        exfalso
        have hplt : prevIdx S.n i < S.n := Nat.mod_lt _ (by omega)
        have hz : (S.ribbons.getD i defaultRibbon).curve.ev 0
            - (S.ribbons.getD (prevIdx S.n i) defaultRibbon).curve.ev 1 = 0 := by
          rw [hclosed (prevIdx S.n i) hplt, nextIdx_prevIdx S.n i hilt,
            sub_self]
        rw [show (S.ribbons.getD i defaultRibbon).curve.ev 0
            - (S.ribbons.getD (prevIdx S.n i) defaultRibbon).curve.ev 1
            = 0 from hz, norm2_zero_eq] at hlt
        exact absurd hlt (not_lt.mpr (norm2_nonneg _))
      · rfl
  exact ⟨hid, by rw [hid, hid]⟩

/-- A triangle of three straight segments forming a closed, consistently
oriented loop. -/
def triSurface : Surface :=
  ⟨3,
   [⟨⟨fun t => (t, 0, 0), fun _ => (1, 0, 0)⟩, fun _ => zeroV⟩,
    ⟨⟨fun t => (1 - t, t, 0), fun _ => (-1, 1, 0)⟩, fun _ => zeroV⟩,
    ⟨⟨fun t => (0, 1 - t, 0), fun _ => (0, -1, 0)⟩, fun _ => zeroV⟩],
   [], true⟩

theorem mulS_zero (v : Vec3) : mulS v 0 = zeroV := by
  simp [mulS, zeroV]

/-- C8: blendSideSingular assigns weight exactly 1/k to each of the k sides
with d below epsilon and 0 to every other side when k >= 1; otherwise it
assigns side i the weight d_i^-2 divided by the sum over all sides j of
d_j^-2. -/
theorem blendSideSingular_formula (eps : ℚ) (S : Surface)
    (sds : Fin S.n → ℚ × ℚ) :
    (1 ≤ closeCount eps S.n sds → ∀ i : Fin S.n,
        ((sds i).2 < eps →
          Surface.blendSideSingular eps S sds i
            = 1 / (closeCount eps S.n sds : ℚ))
        ∧ (eps ≤ (sds i).2 → Surface.blendSideSingular eps S sds i = 0))
    ∧ (closeCount eps S.n sds = 0 → ∀ i : Fin S.n,
        Surface.blendSideSingular eps S sds i
          = powm2 (sds i).2 / ∑ j, powm2 (sds j).2) := by
  constructor
  · intro hk i
    have h0 : 0 < closeCount eps S.n sds := by omega
    constructor
    · intro hi
      simp only [Surface.blendSideSingular, if_pos h0, if_pos hi]
    · intro hi
      simp only [Surface.blendSideSingular, if_pos h0,
        if_neg (not_lt.mpr hi)]
  · intro hk i
    have h0 : ¬ 0 < closeCount eps S.n sds := by omega
    simp only [Surface.blendSideSingular, if_neg h0]

theorem blendSideSingular_formula_witness :
    Surface.blendSideSingular (1/2) (⟨2, [], [], true⟩ : Surface)
        (fun i => (0, if i = 0 then 0 else 1)) 0
      = 1 / ((closeCount (1/2) 2
          (fun i => (0, if i = 0 then 0 else 1))) : ℚ) :=
  ((blendSideSingular_formula (1/2) ⟨2, [], [], true⟩
      (fun i => (0, if i = 0 then 0 else 1))).1
    (by
      show 1 ≤ (Finset.univ.filter fun i : Fin 2 =>
        ((fun i : Fin 2 => ((0:ℚ), if i = 0 then (0:ℚ) else 1)) i).2 < 1/2).card
      rw [Finset.card_filter, Fin.sum_univ_two, if_pos (by norm_num),
        if_neg (by norm_num)]
    ) 0).1 (by norm_num)

/-- Corner-data record with tangent1 set to the unit x vector. -/
def probeCD1 : CornerData := ⟨zeroV, (1, 0, 0), zeroV, zeroV, zeroV⟩

/-- Corner-data record with tangent2 set to the unit x vector. -/
def probeCD2 : CornerData := ⟨zeroV, zeroV, (1, 0, 0), zeroV, zeroV⟩

/-- Ribbon whose strip evaluator returns the distance coordinate. -/
def probeRibbon : Ribbon := ⟨defaultCurve, fun p => (p.2, 0, 0)⟩

/-- C3: the gamma remap is applied only inside cornerCorrection and
sideInterpolant, never inside the blend-weight functions: blendCorner and
blendSideSingular return identical outputs whether use_gamma_ is true or
false (two-run noninterference in the flag), while sideInterpolant reads its
distance parameter only through gamma (the enabled run equals the disabled
run at the remapped distance) and both parameters of cornerCorrection pass
through gamma (turning the flag changes the output through either parameter
alone). -/
theorem gamma_noninterference (eps : ℚ) :
    (∀ (S : Surface) (sds : Fin S.n → ℚ × ℚ),
        Surface.blendCorner eps { S with use_gamma := true } sds
          = Surface.blendCorner eps { S with use_gamma := false } sds)
    ∧ (∀ (S : Surface) (sds : Fin S.n → ℚ × ℚ),
        Surface.blendSideSingular eps { S with use_gamma := true } sds
          = Surface.blendSideSingular eps { S with use_gamma := false } sds)
    ∧ (∀ (S : Surface) (i : ℕ) (s d : ℚ),
        Surface.sideInterpolant { S with use_gamma := true } i s d
          = Surface.sideInterpolant { S with use_gamma := false } i s
              (gammaFn true d))
    ∧ (∃ (S : Surface) (i : ℕ) (s d : ℚ),
        Surface.sideInterpolant { S with use_gamma := true } i s d
          ≠ Surface.sideInterpolant { S with use_gamma := false } i s d)
    ∧ (∃ (S : Surface) (i : ℕ) (si si1 : ℚ), si1 = 0 ∧
        Surface.cornerCorrection eps { S with use_gamma := true } i si si1
          ≠ Surface.cornerCorrection eps { S with use_gamma := false } i si si1)
    ∧ (∃ (S : Surface) (i : ℕ) (si si1 : ℚ), si = 0 ∧
        Surface.cornerCorrection eps { S with use_gamma := true } i si si1
          ≠ Surface.cornerCorrection eps { S with use_gamma := false } i si
              si1) := by
  have hg0 : ∀ b : Bool, gammaFn b 0 = 0 := by
    intro b
    cases b
    · rfl
    · show (0:ℚ) / (2 * 0 + 1) = 0
      norm_num
  refine ⟨fun S sds => rfl, fun S sds => rfl, fun S i s d => rfl, ?_, ?_, ?_⟩
  · refine ⟨⟨1, [probeRibbon], [], true⟩, 0, 0, 1, ?_⟩
    have key : ∀ b : Bool,
        Surface.sideInterpolant (⟨1, [probeRibbon], [], b⟩ : Surface) 0 0 1
          = (max (gammaFn b 1) 0, 0, 0) := fun b => rfl
    show Surface.sideInterpolant (⟨1, [probeRibbon], [], true⟩ : Surface) 0 0 1
      ≠ Surface.sideInterpolant (⟨1, [probeRibbon], [], false⟩ : Surface) 0 0 1
    rw [key true, key false]
    intro h
    have h1 := congrArg Prod.fst h
    have e1 : max (gammaFn true 1) 0 = 1/3 := by
      rw [show gammaFn true 1 = 1/3 from by norm_num [gammaFn]]
      exact max_eq_left (by norm_num)
    have e2 : max (gammaFn false 1) 0 = 1 := by
      rw [show gammaFn false 1 = 1 from rfl]
      exact max_eq_left (by norm_num)
    rw [show (max (gammaFn true 1) 0, (0:ℚ), (0:ℚ)).1
        = max (gammaFn true 1) 0 from rfl,
      show (max (gammaFn false 1) 0, (0:ℚ), (0:ℚ)).1
        = max (gammaFn false 1) 0 from rfl, e1, e2] at h1
    norm_num at h1
  · refine ⟨⟨1, [], [probeCD1], true⟩, 0, 1, 0, rfl, ?_⟩
    have key : ∀ b : Bool,
        Surface.cornerCorrection eps (⟨1, [], [probeCD1], b⟩ : Surface) 0 1 0
          = (gammaFn b 1, 0, 0) := by
      intro b
      show zeroV + mulS (1, 0, 0) (gammaFn b (min (max 1 0) 1))
          + mulS zeroV (gammaFn b (min (max 0 0) 1))
          + mulS (mulS (rationalTwist eps (min (max 1 0) 1) (min (max 0 0) 1)
              zeroV zeroV) (gammaFn b (min (max 1 0) 1)))
            (gammaFn b (min (max 0 0) 1))
        = (gammaFn b 1, 0, 0)
      rw [show min (max (1:ℚ) 0) 1 = 1 from by norm_num,
        show min (max (0:ℚ) 0) 1 = 0 from by norm_num, hg0 b, mulS_zero,
        mulS_zero]
      simp [mulS, zeroV, Prod.mk_add_mk]
    show Surface.cornerCorrection eps (⟨1, [], [probeCD1], true⟩ : Surface)
        0 1 0
      ≠ Surface.cornerCorrection eps (⟨1, [], [probeCD1], false⟩ : Surface)
        0 1 0
    rw [key true, key false]
    intro h
    have h1 := congrArg Prod.fst h
    rw [show ((gammaFn true 1 : ℚ), (0:ℚ), (0:ℚ)).1 = gammaFn true 1 from rfl,
      show ((gammaFn false 1 : ℚ), (0:ℚ), (0:ℚ)).1 = gammaFn false 1 from
        rfl] at h1
    norm_num [gammaFn] at h1
  · refine ⟨⟨1, [], [probeCD2], true⟩, 0, 0, 1, rfl, ?_⟩
    have key : ∀ b : Bool,
        Surface.cornerCorrection eps (⟨1, [], [probeCD2], b⟩ : Surface) 0 0 1
          = (gammaFn b 1, 0, 0) := by
      intro b
      show zeroV + mulS zeroV (gammaFn b (min (max 0 0) 1))
          + mulS (1, 0, 0) (gammaFn b (min (max 1 0) 1))
          + mulS (mulS (rationalTwist eps (min (max 0 0) 1) (min (max 1 0) 1)
              zeroV zeroV) (gammaFn b (min (max 0 0) 1)))
            (gammaFn b (min (max 1 0) 1))
        = (gammaFn b 1, 0, 0)
      rw [show min (max (1:ℚ) 0) 1 = 1 from by norm_num,
        show min (max (0:ℚ) 0) 1 = 0 from by norm_num, hg0 b]
      rw [mulS_zero, show mulS (mulS (rationalTwist eps 0 1 zeroV zeroV)
          0) (gammaFn b 1) = mulS zeroV (gammaFn b 1) from by
        rw [mulS_zero]]
      simp [mulS, zeroV, Prod.mk_add_mk]
    show Surface.cornerCorrection eps (⟨1, [], [probeCD2], true⟩ : Surface)
        0 0 1
      ≠ Surface.cornerCorrection eps (⟨1, [], [probeCD2], false⟩ : Surface)
        0 0 1
    rw [key true, key false]
    intro h
    have h1 := congrArg Prod.fst h
    rw [show ((gammaFn true 1 : ℚ), (0:ℚ), (0:ℚ)).1 = gammaFn true 1 from rfl,
      show ((gammaFn false 1 : ℚ), (0:ℚ), (0:ℚ)).1 = gammaFn false 1 from
        rfl] at h1
    norm_num [gammaFn] at h1

/-- C1 (amended): blendSideSingular weights always sum to 1 (N >= 1);
blendCorner weights sum to 1 for interior inputs, and for inputs with
exactly one near-boundary side (N >= 3); when two or more sides are
near-boundary, the blendCorner weights sum to the number of corners whose
two adjacent sides are both near-boundary, which equals 1 exactly when there
is exactly one such corner. -/
theorem partition_of_unity_amended (eps : ℚ) (S : Surface)
    (sds : Fin S.n → ℚ × ℚ) (heps : 0 < eps) (hn : 0 < S.n) :
    (∑ i, Surface.blendSideSingular eps S sds i = 1)
    ∧ (closeCount eps S.n sds = 0 →
        ∑ i, Surface.blendCorner eps S sds i = 1)
    ∧ (closeCount eps S.n sds = 1 → 3 ≤ S.n →
        ∑ i, Surface.blendCorner eps S sds i = 1)
    ∧ (2 ≤ closeCount eps S.n sds →
        ∑ i, Surface.blendCorner eps S sds i
          = ((Finset.univ.filter fun i : Fin S.n =>
              (sds i).2 < eps ∧ (sds (nextF i)).2 < eps).card : ℚ)) := by
  refine ⟨?_, ?_, ?_, ?_⟩
  · -- blendSideSingular always sums to 1.
    by_cases hk : 0 < closeCount eps S.n sds
    · simp only [Surface.blendSideSingular, if_pos hk]
      rw [Finset.sum_ite, Finset.sum_const, Finset.sum_const_zero, add_zero,
        nsmul_eq_mul]
      have hcard : (Finset.univ.filter fun i : Fin S.n =>
          (sds i).2 < eps).card = closeCount eps S.n sds := rfl
      rw [hcard, mul_one_div, div_self]
      exact Nat.cast_ne_zero.mpr (by omega)
    · have hall : ∀ i : Fin S.n, eps ≤ (sds i).2 := by
        intro i
        by_contra hcon
        have hmem : i ∈ Finset.univ.filter
            (fun j : Fin S.n => (sds j).2 < eps) :=
          Finset.mem_filter.mpr ⟨Finset.mem_univ i, not_le.mp hcon⟩
        have hpos : 0 < closeCount eps S.n sds :=
          Finset.card_pos.mpr ⟨i, hmem⟩
        omega
      simp only [Surface.blendSideSingular, if_neg hk]
      rw [← Finset.sum_div]
      apply div_self
      apply ne_of_gt
      apply Finset.sum_pos
      · intro i _
        exact inv_pos.mpr (pow_pos (lt_of_lt_of_le heps (hall i)) 2)
      · exact ⟨⟨0, hn⟩, Finset.mem_univ _⟩
  · -- blendCorner, interior case.
    intro hk0
    have hk : ¬ 0 < closeCount eps S.n sds := by omega
    have hall : ∀ i : Fin S.n, eps ≤ (sds i).2 := by
      intro i
      by_contra hcon
      have hmem : i ∈ Finset.univ.filter
          (fun j : Fin S.n => (sds j).2 < eps) :=
        Finset.mem_filter.mpr ⟨Finset.mem_univ i, not_le.mp hcon⟩
      have hpos : 0 < closeCount eps S.n sds :=
        Finset.card_pos.mpr ⟨i, hmem⟩
      omega
    simp only [Surface.blendCorner, if_neg hk]
    rw [← Finset.sum_div]
    apply div_self
    apply ne_of_gt
    apply Finset.sum_pos
    · intro i _
      exact inv_pos.mpr (pow_pos (mul_pos
        (lt_of_lt_of_le heps (hall i))
        (lt_of_lt_of_le heps (hall (nextF i)))) 2)
    · exact ⟨⟨0, hn⟩, Finset.mem_univ _⟩
  · -- blendCorner, exactly one near-boundary side: two adjacent corners
    -- share the weight with an inverse-squared-distance split.
    intro hk1 hn3
    have hk : 0 < closeCount eps S.n sds := by omega
    have hk2 : ¬ 1 < closeCount eps S.n sds := by omega
    obtain ⟨b, hb⟩ := Finset.card_eq_one.mp hk1
    have hbmem : b ∈ Finset.univ.filter
        (fun i : Fin S.n => (sds i).2 < eps) := by
      rw [hb]
      exact Finset.mem_singleton_self b
    have hbd : (sds b).2 < eps := (Finset.mem_filter.mp hbmem).2
    have huniq : ∀ j : Fin S.n, (sds j).2 < eps → j = b := by
      intro j hj
      have hjm : j ∈ Finset.univ.filter
          (fun i : Fin S.n => (sds i).2 < eps) :=
        Finset.mem_filter.mpr ⟨Finset.mem_univ j, hj⟩
      rw [hb] at hjm
      exact Finset.mem_singleton.mp hjm
    have h2 : 2 ≤ S.n := by omega
    have hpb : prevF b ≠ b := prevF_ne h2 b
    have hnb : nextF b ≠ b := nextF_ne h2 b
    have hdp : ¬ (sds (prevF b)).2 < eps := fun h => hpb (huniq _ h)
    have hdn : ¬ (sds (nextF b)).2 < eps := fun h => hnb (huniq _ h)
    have hPpos : 0 < powm2 (sds (prevF b)).2 :=
      inv_pos.mpr (pow_pos (lt_of_lt_of_le heps (not_lt.mp hdp)) 2)
    have hQpos : 0 < powm2 (sds (nextF b)).2 :=
      inv_pos.mpr (pow_pos (lt_of_lt_of_le heps (not_lt.mp hdn)) 2)
    simp only [Surface.blendCorner, if_pos hk, if_neg hk2]
    have hsplit : ∀ x : Fin S.n,
        (if (sds x).2 < eps then
          powm2 (sds (nextF x)).2
            / (powm2 (sds (nextF x)).2 + powm2 (sds (prevF x)).2)
        else if (sds (nextF x)).2 < eps then
          powm2 (sds x).2
            / (powm2 (sds x).2 + powm2 (sds (nextF (nextF x))).2)
        else 0)
        = (if x = prevF b then
            powm2 (sds (prevF b)).2
              / (powm2 (sds (prevF b)).2 + powm2 (sds (nextF b)).2)
          else 0)
          + (if x = b then
            powm2 (sds (nextF b)).2
              / (powm2 (sds (nextF b)).2 + powm2 (sds (prevF b)).2)
          else 0) := by
      intro x
      by_cases hx1 : x = b
      · subst hx1
        rw [if_pos hbd, if_neg (fun h => hpb (h.symm)), if_pos rfl, zero_add]
      · by_cases hx2 : x = prevF b
        · subst hx2
          rw [if_neg hdp, nextF_prevF, if_pos hbd, if_pos rfl,
            if_neg hpb, add_zero]
        · have hnx : ¬ (sds x).2 < eps := fun h => hx1 (huniq _ h)
          have hnnx : ¬ (sds (nextF x)).2 < eps := by
            intro h
            exact hx2 ((prevF_nextF x).symm.trans
              (congrArg prevF (huniq _ h)))
          rw [if_neg hnx, if_neg hnnx, if_neg hx2, if_neg hx1, add_zero]
    rw [Finset.sum_congr rfl (fun x hx => hsplit x), Finset.sum_add_distrib,
      Finset.sum_ite_eq', Finset.sum_ite_eq', if_pos (Finset.mem_univ _),
      if_pos (Finset.mem_univ _),
      add_comm (powm2 (sds (nextF b)).2) (powm2 (sds (prevF b)).2),
      div_add_div_same, div_self (ne_of_gt (add_pos hPpos hQpos))]
  · -- blendCorner, two or more near-boundary sides: indicator weights.
    intro hk2
    have hk : 0 < closeCount eps S.n sds := by omega
    have hk1 : 1 < closeCount eps S.n sds := by omega
    simp only [Surface.blendCorner, if_pos hk, if_pos hk1]
    rw [Finset.sum_ite, Finset.sum_const, Finset.sum_const_zero, add_zero,
      nsmul_eq_mul, mul_one]

/-- A 4-sided surface state used for the partition-of-unity counterexample. -/
def S4cex : Surface := ⟨4, [], [], true⟩

/-- Input with two non-adjacent near-boundary sides (0 and 2). -/
def sdsCex : Fin 4 → ℚ × ℚ := fun i => (0, if i = 0 ∨ i = 2 then 0 else 1)

/-- C1 counterexample: with two near-boundary sides that are not adjacent,
the blendCorner weights sum to 0, not 1 — the partition-of-unity claim fails
on the branch taken when two or more sides are within epsilon. -/
theorem partition_of_unity_cex :
    ¬ (∑ i : Fin 4, Surface.blendCorner (1/2) S4cex sdsCex i = 1) := by
  have hd0 : (sdsCex 0).2 = 0 := by
    show (if (0 : Fin 4) = 0 ∨ (0 : Fin 4) = 2 then (0:ℚ) else 1) = 0
    rw [if_pos (Or.inl rfl)]
  have hd1 : (sdsCex 1).2 = 1 := by
    show (if (1 : Fin 4) = 0 ∨ (1 : Fin 4) = 2 then (0:ℚ) else 1) = 1
    rw [if_neg (by decide)]
  have hd2 : (sdsCex 2).2 = 0 := by
    show (if (2 : Fin 4) = 0 ∨ (2 : Fin 4) = 2 then (0:ℚ) else 1) = 0
    rw [if_pos (Or.inr rfl)]
  have hd3 : (sdsCex 3).2 = 1 := by
    show (if (3 : Fin 4) = 0 ∨ (3 : Fin 4) = 2 then (0:ℚ) else 1) = 1
    rw [if_neg (by decide)]
  have hcc : closeCount (1/2) 4 sdsCex = 2 := by
    show (Finset.univ.filter fun i : Fin 4 => (sdsCex i).2 < 1/2).card = 2
    rw [Finset.card_filter, Fin.sum_univ_four,
      if_pos (by rw [hd0]; norm_num), if_neg (by rw [hd1]; norm_num),
      if_pos (by rw [hd2]; norm_num), if_neg (by rw [hd3]; norm_num)]
  have key : ∀ j : Fin 4, (sdsCex j).2 < 1/2 → j = 0 ∨ j = 2 := by
    intro j hj
    by_contra hcon
    push_neg at hcon
    rw [show (sdsCex j).2 = if j = 0 ∨ j = 2 then 0 else 1 from rfl,
      if_neg (by tauto)] at hj
    norm_num at hj
  have hterm : ∀ i : Fin 4, Surface.blendCorner (1/2) S4cex sdsCex i = 0 := by
    intro i
    simp only [Surface.blendCorner, S4cex]
    rw [hcc, if_pos (by norm_num), if_pos (by norm_num), if_neg]
    rintro ⟨ha, hb⟩
    rcases key i ha with h | h <;> subst h <;>
      rcases key _ hb with h2 | h2 <;> exact absurd h2 (by decide)
  intro habs
  rw [Finset.sum_eq_zero (fun i _ => hterm i)] at habs
  norm_num at habs

theorem partition_of_unity_amended_witness :
    (∑ i, Surface.blendSideSingular (1/2) (⟨3, [], [], true⟩ : Surface)
        (fun _ => (0, 1)) i = 1)
    ∧ (∑ i, Surface.blendCorner (1/2) (⟨3, [], [], true⟩ : Surface)
        (fun _ => (0, 1)) i = 1) := by
  have hcc : closeCount (1/2) 3 (fun _ : Fin 3 => ((0:ℚ), (1:ℚ))) = 0 := by
    show (Finset.univ.filter fun i : Fin 3 =>
      ((fun _ : Fin 3 => ((0:ℚ), (1:ℚ))) i).2 < 1/2).card = 0
    rw [Finset.card_eq_zero, Finset.filter_eq_empty_iff]
    intro i _
    norm_num
  exact ⟨(partition_of_unity_amended (1/2) ⟨3, [], [], true⟩
      (fun _ => (0, 1)) (by norm_num) (by show (0:ℕ) < 3; norm_num)).1,
    (partition_of_unity_amended (1/2) ⟨3, [], [], true⟩
      (fun _ => (0, 1)) (by norm_num) (by show (0:ℕ) < 3; norm_num)).2.1 hcc⟩

/-! Projection facts for the state operations. -/

theorem updateCorner_n (T : Surface) (i : ℕ) : (T.updateCorner i).n = T.n := rfl

theorem updateCorner_ribbons (T : Surface) (i : ℕ) :
    (T.updateCorner i).ribbons = T.ribbons := rfl

theorem updateCorner_corner_data (T : Surface) (i : ℕ) :
    (T.updateCorner i).corner_data = T.corner_data.set i
      (updateCornerData T.n T.ribbons i (T.corner_data.getD i defaultCD)) := rfl

/-- Characterization of the updateCorners fold: the side count and ribbons
are untouched, the corner-data length is preserved, entries at indices not
yet processed are untouched, and every processed entry holds the recomputed
corner record. -/
theorem updateCorners_foldl_spec (S0 : Surface) (m : ℕ) :
    ((List.range m).foldl (fun T i => T.updateCorner i) S0).n = S0.n
    ∧ ((List.range m).foldl (fun T i => T.updateCorner i) S0).ribbons
        = S0.ribbons
    ∧ ((List.range m).foldl (fun T i => T.updateCorner i) S0).corner_data.length
        = S0.corner_data.length
    ∧ (∀ j, m ≤ j →
        ((List.range m).foldl (fun T i => T.updateCorner i) S0).corner_data.getD
            j defaultCD
          = S0.corner_data.getD j defaultCD)
    ∧ (∀ j, j < m → j < S0.corner_data.length →
        ((List.range m).foldl (fun T i => T.updateCorner i) S0).corner_data.getD
            j defaultCD
          = updateCornerData S0.n S0.ribbons j (S0.corner_data.getD j defaultCD)) := by
  induction m with
  | zero =>
    exact ⟨rfl, rfl, rfl, fun j hj => rfl, fun j hj hj2 => absurd hj (by omega)⟩
  | succ m2 ih =>
    obtain ⟨ihn, ihr, ihl, ihhi, ihlo⟩ := ih
    rw [List.range_succ, List.foldl_append, List.foldl_cons, List.foldl_nil]
    refine ⟨ihn, ihr, ?_, ?_, ?_⟩
    · rw [updateCorner_corner_data, List.length_set]
      exact ihl
    · intro j hj
      rw [updateCorner_corner_data, getD_set_ne _ _ _ _ _ (by omega)]
      exact ihhi j (by omega)
    · intro j hj hj2
      rw [updateCorner_corner_data]
      rcases Nat.lt_or_ge j m2 with hlt | hge
      · rw [getD_set_ne _ _ _ _ _ (by omega)]
        exact ihlo j hlt hj2
      · have hjm : j = m2 := by omega
        subst hjm
        rw [getD_set_self _ _ _ _ (by rw [ihl]; exact hj2), ihn, ihr,
          ihhi j (le_refl j)]

/-- C2: updateCorner(i) assigns the second finite-difference twist (sampled
on ribbon next(i) near s=0) to twist1, overwriting the first result (sampled
on ribbon i near s=1); twist2 is never assigned.  Consequently after
update(), every corner i has twist1 equal to the next-ribbon estimate
(d2 - d1)/step with step = 1e-4. -/
theorem updateCorner_twist_overwrite (ext : Ribbon → Ribbon) (S : Surface) :
    (∀ (n : ℕ) (ribbons : List Ribbon) (i : ℕ) (old : CornerData),
        (updateCornerData n ribbons i old).twist2 = old.twist2)
    ∧ (∀ (n : ℕ) (ribbons : List Ribbon) (i : ℕ) (old : CornerData),
        (updateCornerData n ribbons i old).twist1
          = divS ((ribbons.getD (nextIdx n i) defaultRibbon).eval (fdStep, 1)
              - (ribbons.getD (nextIdx n i) defaultRibbon).eval (0, 1)) fdStep)
    ∧ (∀ i : Fin S.n,
        (((S.updateAll ext).corner_data).getD i.val defaultCD).twist1
          = divS (((S.ribbons.map ext).getD (nextIdx S.n i.val)
                defaultRibbon).eval (fdStep, 1)
              - ((S.ribbons.map ext).getD (nextIdx S.n i.val)
                defaultRibbon).eval (0, 1)) fdStep)
    ∧ fdStep = 1 / 10000 := by
  refine ⟨fun n ribbons i old => rfl, fun n ribbons i old => rfl, ?_, rfl⟩
  intro i
  have hbase : ((S.updateAll ext).corner_data).getD i.val defaultCD
      = updateCornerData S.n (S.ribbons.map ext) i.val
          ((resizeL S.corner_data S.n defaultCD).getD i.val defaultCD) := by
    have h := (updateCorners_foldl_spec
        ⟨S.n, S.ribbons.map ext, resizeL S.corner_data S.n defaultCD,
          S.use_gamma⟩ S.n).2.2.2.2
        i.val i.isLt (by rw [length_resizeL]; exact i.isLt)
    exact h
  rw [hbase]
  rfl

/-- C9: setCurves establishes ribbons_.size() = n_ = curves.size(); setCurve
with i >= n_ grows the ribbon sequence to i+1 and sets n_ = i+1; update()
establishes ribbons_.size() = n_ = corner_data_.size() (given the ribbon
count the setters maintain); setupLoop and update(i) preserve all sizes
(eval is const and touches no state). -/
theorem size_invariant (mk : Curve3 → Ribbon) (ext : Ribbon → Ribbon) :
    (∀ (S : Surface) (curves : List Curve3),
        (S.setCurves mk curves).ribbons.length = (S.setCurves mk curves).n
        ∧ (S.setCurves mk curves).n = curves.length)
    ∧ (∀ (S : Surface) (i : ℕ) (c : Curve3), S.n ≤ i →
        (S.setCurve mk i c).ribbons.length = i + 1
        ∧ (S.setCurve mk i c).n = i + 1)
    ∧ (∀ S : Surface, S.ribbons.length = S.n →
        (S.updateAll ext).ribbons.length = (S.updateAll ext).n
        ∧ (S.updateAll ext).corner_data.length = (S.updateAll ext).n
        ∧ (S.updateAll ext).n = S.n)
    ∧ (∀ S : Surface, S.setupLoop.n = S.n
        ∧ S.setupLoop.ribbons.length = S.ribbons.length
        ∧ S.setupLoop.corner_data = S.corner_data)
    ∧ (∀ (S : Surface) (i : ℕ), (S.updateOne ext i).n = S.n
        ∧ (S.updateOne ext i).ribbons.length = S.ribbons.length
        ∧ (S.updateOne ext i).corner_data.length = S.corner_data.length) := by
  refine ⟨?_, ?_, ?_, ?_, ?_⟩
  · intro S curves
    exact ⟨List.length_map curves mk, rfl⟩
  · intro S i c h
    constructor
    · show ((if S.n ≤ i then _ else S).ribbons.set i (mk c)).length = i + 1
      rw [if_pos h, List.length_set, length_resizeL]
    · show (if S.n ≤ i then _ else S).n = i + 1
      rw [if_pos h]
  · intro S hlen
    have h := updateCorners_foldl_spec
      ⟨S.n, S.ribbons.map ext, resizeL S.corner_data S.n defaultCD,
        S.use_gamma⟩ S.n
    have hn : (S.updateAll ext).n = S.n := h.1
    have hr : (S.updateAll ext).ribbons = S.ribbons.map ext := h.2.1
    have hl : (S.updateAll ext).corner_data.length
        = (resizeL S.corner_data S.n defaultCD).length := h.2.2.1
    refine ⟨?_, ?_, hn⟩
    · rw [hr, List.length_map, hlen, hn]
    · rw [hl, length_resizeL, hn]
  · intro S
    have hstep : ∀ (T : Surface) (i : ℕ),
        (loopStep T i).n = T.n
        ∧ (loopStep T i).ribbons.length = T.ribbons.length
        ∧ (loopStep T i).corner_data = T.corner_data := by
      intro T i
      simp only [loopStep, reverseRibbonAt]
      split
      · split
        · exact ⟨rfl, List.length_set _ _ _, rfl⟩
        · exact ⟨rfl, rfl, rfl⟩
      · split
        · exact ⟨rfl, List.length_set _ _ _, rfl⟩
        · exact ⟨rfl, rfl, rfl⟩
    have hfold := foldl_invariant
      (fun T : Surface => T.n = S.n
        ∧ T.ribbons.length = S.ribbons.length ∧ T.corner_data = S.corner_data)
      loopStep (List.range S.n)
      { S with ribbons := S.ribbons.map fun r =>
          { r with curve := normalizeCurve r.curve } }
      ⟨rfl, List.length_map _ _, rfl⟩
      (fun T i hi hT =>
        ⟨((hstep T i).1).trans hT.1,
         ((hstep T i).2.1).trans hT.2.1,
         ((hstep T i).2.2).trans hT.2.2⟩)
    exact hfold
  · intro S i
    refine ⟨rfl, ?_, ?_⟩
    · show ((S.ribbons.set i (ext (S.ribbons.getD i defaultRibbon)))).length
        = S.ribbons.length
      exact List.length_set _ _ _
    · show ((((S.updateOne ext i))).corner_data).length = S.corner_data.length
      simp only [Surface.updateOne, updateCorner_corner_data]
      rw [List.length_set, List.length_set]

theorem size_invariant_witness :
    ((⟨1, [defaultRibbon], [], true⟩ : Surface).updateAll id).ribbons.length
      = ((⟨1, [defaultRibbon], [], true⟩ : Surface).updateAll id).n :=
  ((size_invariant (fun _ => defaultRibbon) id).2.2.1
    ⟨1, [defaultRibbon], [], true⟩ rfl).1

/-- C10: update(i) recomputes corner data only at indices prev(i) and i; any
other entry of corner_data_ is unchanged, and this overload never resizes the
corner-data sequence, unlike update(), whose updateCorners resizes it to n_. -/
theorem updateOne_frame (ext : Ribbon → Ribbon) (S : Surface) (i j : ℕ)
    (hji : j ≠ i) (hjp : j ≠ prevIdx S.n i) :
    (S.updateOne ext i).corner_data.getD j defaultCD
      = S.corner_data.getD j defaultCD
    ∧ (S.updateOne ext i).corner_data.length = S.corner_data.length
    ∧ (∀ S2 : Surface, (S2.updateAll ext).corner_data.length = S2.n) := by
  refine ⟨?_, ?_, ?_⟩
  · simp only [Surface.updateOne, updateCorner_corner_data]
    rw [getD_set_ne _ _ _ _ _ (Ne.symm hji),
      getD_set_ne _ _ _ _ _ (Ne.symm hjp)]
  · simp only [Surface.updateOne, updateCorner_corner_data]
    rw [List.length_set, List.length_set]
  · intro S2
    have h := updateCorners_foldl_spec
      ⟨S2.n, S2.ribbons.map ext, resizeL S2.corner_data S2.n defaultCD,
        S2.use_gamma⟩ S2.n
    have hl : (S2.updateAll ext).corner_data.length
        = (resizeL S2.corner_data S2.n defaultCD).length := h.2.2.1
    rw [hl, length_resizeL]

theorem updateOne_frame_witness :
    ((⟨3, [], [defaultCD, defaultCD, defaultCD], true⟩ : Surface).updateOne
        id 0).corner_data.getD 1 defaultCD
      = (⟨3, [], [defaultCD, defaultCD, defaultCD],
          true⟩ : Surface).corner_data.getD 1 defaultCD :=
  (updateOne_frame id ⟨3, [], [defaultCD, defaultCD, defaultCD], true⟩ 0 1
    (by norm_num) (by norm_num [prevIdx])).1

theorem setupLoop_closed_loop_identity_witness :
    triSurface.setupLoop = triSurface :=
  (setupLoop_closed_loop_identity triSurface rfl (by norm_num [triSurface])
    (by
      have h3 : triSurface.n = 3 := rfl
      rw [h3]
      intro i hi
      interval_cases i
      · show ((1:ℚ), (0:ℚ), (0:ℚ)) = (1 - (0:ℚ), (0:ℚ), (0:ℚ))
        norm_num
      · show (1 - (1:ℚ), (1:ℚ), (0:ℚ)) = ((0:ℚ), 1 - (0:ℚ), (0:ℚ))
        norm_num
      · show ((0:ℚ), 1 - (1:ℚ), (0:ℚ)) = ((0:ℚ), (0:ℚ), (0:ℚ))
        norm_num)).1

end Transfinite
